import Mathlib

/-!
Verification of the cookie-taster combination engine and validator dispatch.

The definitions below are a shallow embedding of
`src/cookie_taster/core/combinations.py`, `src/cookie_taster/core/template.py`,
`src/cookie_taster/plugins/manager.py`, `src/cookie_taster/plugins/models.py`
and the `overall_success` computation of
`src/cookie_taster/tui/screens/execution.py`.

Python dictionaries are modelled as association lists (`List (String × _)`).
A real Python `dict` never holds two entries with the same key, so theorems
about dict-valued inputs carry `Nodup` hypotheses on the key list where the
behaviour depends on it.  Python `dict.__setitem__` keeps the position of an
existing key and appends a fresh key at the end; `dictInsert` mirrors that.
Raised exceptions are modelled with `Except`.
-/

/-- A Python value stored in a context dictionary.  `generate_combinations`
never inspects base-context values, it only copies them, so an opaque tag is
enough for the non-string objects that a `base_context : dict[str, object]`
may carry. -/
inductive PyVal where
  | str (s : String)
  | obj (tag : Nat)
deriving DecidableEq, Repr

/-- `TemplateOption` from `core/template.py`: a template variable with its
choices and default. -/
structure TemplateOption where
  name : String
  choices : List String
  default : String
deriving DecidableEq, Repr

/-- The invariant enforced by `TemplateOption.__post_init__`: the choice list
is non-empty and the default is one of the choices. -/
def TemplateOption.wellFormed (o : TemplateOption) : Prop :=
  o.choices ≠ [] ∧ o.default ∈ o.choices

/-- `TemplateOption.__post_init__`: construction raises `ValueError` unless
the option is well-formed. -/
def mkTemplateOption (name : String) (choices : List String) (default : String) :
    Except String TemplateOption :=
  if choices.isEmpty then
    Except.error "must have at least one choice"
  else if default ∈ choices then
    Except.ok { name := name, choices := choices, default := default }
  else
    Except.error "default is not in choices"

/-- The two `ValueError` shapes raised by `generate_combinations`
(`Unknown option: ...` and `Invalid values for option ...`). -/
inductive CombinationError where
  | unknownOption (name : String)
  | invalidChoice (name : String) (invalid : List String) (valid : List String)
deriving DecidableEq, Repr

/-- First-match lookup in an association list: the value Python's `d[k]`
returns on an ordinary dict (which never holds duplicate keys). -/
def firstLookup {α : Type} : List (String × α) → String → Option α
  | [], _ => none
  | p :: rest, k => if p.1 = k then some p.2 else firstLookup rest k

/-- Last-match lookup in an association list: what repeated `d[k] = v`
assignments leave behind, i.e. the value of the final write for key `k`. -/
def lastLookup {α : Type} (l : List (String × α)) (k : String) : Option α :=
  l.foldl (fun acc p => if p.1 = k then some p.2 else acc) none

/-- Python `d[k] = v` on a dict rendered as an association list: overwrite in
place when the key is present, append otherwise. -/
def dictInsert {α : Type} (c : List (String × α)) (k : String) (v : α) :
    List (String × α) :=
  if (firstLookup c k).isSome then
    c.map (fun p => if p.1 = k then (k, v) else p)
  else
    c ++ [(k, v)]

/-- `option_map = {opt.name: opt for opt in options}` followed by
`option_map[name]`: a dict comprehension keeps the last option with a given
name. -/
def option_lookup (options : List TemplateOption) (n : String) :
    Option TemplateOption :=
  options.foldl (fun acc o => if o.name = n then some o else acc) none

/-- Reading `selections[name]` (`selections` is a Python dict, so its key
list is duplicate-free and first-match lookup agrees with it). -/
def selLookup (selections : List (String × List String)) (n : String) :
    Option (List String) :=
  firstLookup selections n

/-- The validation loop of `generate_combinations` (lines 49-61): walk the
selection entries in order; an unknown option name raises `Unknown option`,
a selected value outside the option's choices raises `Invalid values`. -/
def validate_selections (options : List TemplateOption) :
    List (String × List String) → Except CombinationError Unit
  | [] => Except.ok ()
  | (n, vs) :: rest =>
    match option_lookup options n with
    | none => Except.error (CombinationError.unknownOption n)
    | some o =>
      let invalid := vs.filter (fun v => v ∉ o.choices)
      if invalid.isEmpty then validate_selections options rest
      else Except.error (CombinationError.invalidChoice n invalid o.choices)

/-- The varying/fixed partition (lines 72-75): an option varies when it is a
selection key with a non-empty value list; the pair keeps the values to vary. -/
def varyingPairs (options : List TemplateOption)
    (selections : List (String × List String)) : List (String × List String) :=
  options.filterMap (fun o =>
    match selLookup selections o.name with
    | some vs => if vs.isEmpty then none else some (o.name, vs)
    | none => none)

/-- The condition of line 96: `option.name not in selections or
len(selections[option.name]) == 0`, i.e. the option is fixed to its default. -/
def isFixed (selections : List (String × List String)) (n : String) : Bool :=
  match selLookup selections n with
  | some vs => vs.isEmpty
  | none => true

/-- `itertools.product(*lists)`: the tuples of one element per input list,
enumerated with the last list cycling fastest. -/
def listProduct : List (List String) → List (List String)
  | [] => [[]]
  | vs :: rest => vs.flatMap (fun v => (listProduct rest).map (fun t => v :: t))

/-- The body of the product loop (lines 86-99): copy the base context, write
the varying assignments, then write the default of every fixed option. -/
def buildCombo (options : List TemplateOption)
    (selections : List (String × List String)) (base : List (String × PyVal))
    (varNames : List String) (tpl : List String) : List (String × PyVal) :=
  options.foldl (fun c o =>
    if isFixed selections o.name then dictInsert c o.name (PyVal.str o.default)
    else c)
    ((varNames.zip tpl).foldl (fun c p => dictInsert c p.1 (PyVal.str p.2)) base)

/-- `generate_combinations` from `core/combinations.py`: validate the
selections, then either return the single all-defaults context (no option
varies) or one context per tuple of the cartesian product of the varying
value lists. -/
def generate_combinations (options : List TemplateOption)
    (selections : List (String × List String))
    (base_context : List (String × PyVal)) :
    Except CombinationError (List (List (String × PyVal))) :=
  match validate_selections options selections with
  | Except.error e => Except.error e
  | Except.ok _ =>
    let varying := varyingPairs options selections
    if varying.isEmpty then
      Except.ok [options.foldl
        (fun c o => dictInsert c o.name (PyVal.str o.default)) base_context]
    else
      Except.ok ((listProduct (varying.map (fun p => p.2))).map
        (fun tpl => buildCombo options selections base_context
          (varying.map (fun p => p.1)) tpl))

/-- `estimate_combination_count` from `core/combinations.py`: product of the
selected-value counts over the entries whose key names a known option and
whose value list is non-empty. -/
def estimate_combination_count (options : List TemplateOption)
    (selections : List (String × List String)) : Nat :=
  selections.foldl (fun count p =>
    if (option_lookup options p.1).isSome && !p.2.isEmpty then
      count * p.2.length
    else count) 1

/-- Spec-side enumeration of §4.1: the cartesian product over the varying
options' value lists taken in declaration order, one assignment list per
tuple, with the last-declared varying option cycling fastest (earlier
options are outer loops). -/
def cartesianAssignments : List (String × List String) →
    List (List (String × String))
  | [] => [[]]
  | (n, vs) :: rest =>
    vs.flatMap (fun v => (cartesianAssignments rest).map (fun a => (n, v) :: a))

/-- Spec-side context of §4.1, read at one key: base context merged with the
tuple's assignments merged with every fixed option's default, assignments and
defaults overriding the base context on key collision. -/
def specContext (options : List TemplateOption)
    (selections : List (String × List String)) (base : List (String × PyVal))
    (assign : List (String × String)) (k : String) : Option PyVal :=
  match firstLookup assign k with
  | some v => some (PyVal.str v)
  | none =>
    match firstLookup ((options.filter (fun o => isFixed selections o.name)).map
        (fun o => (o.name, o.default))) k with
    | some d => some (PyVal.str d)
    | none => firstLookup base k

/-- Spec-side context for the no-varying case, read at one key: the base
context merged with every option's default, defaults overriding the base. -/
def mergedDefaults (options : List TemplateOption)
    (base : List (String × PyVal)) (k : String) : Option PyVal :=
  match option_lookup options k with
  | some o => some (PyVal.str o.default)
  | none => firstLookup base k

/-- `TemplateMetadata` from `plugins/models.py`. -/
structure TemplateMetadata where
  source : String
  name : Option String := none
  version : Option String := none
deriving DecidableEq, Repr

/-- `TasterContext` from `plugins/models.py`: the read-only projection used
for the applicability decision. -/
structure TasterContext where
  cookiecutter_context : List (String × String)
  template_metadata : TemplateMetadata
deriving DecidableEq, Repr

/-- `ProjectInfo` from `plugins/models.py` (the filesystem path is opaque to
the dispatcher and is kept as a plain string). -/
structure ProjectInfo where
  path : String
  cookiecutter_context : List (String × String)
  template_metadata : TemplateMetadata
deriving DecidableEq, Repr

/-- `ProjectInfo.taster_context` from `plugins/models.py`. -/
def ProjectInfo.taster_context (p : ProjectInfo) : TasterContext :=
  { cookiecutter_context := p.cookiecutter_context
    template_metadata := p.template_metadata }

/-- `TasterStatus` from `plugins/models.py`. -/
inductive TasterStatus where
  | SUCCESS
  | FAILURE
  | SKIPPED
  | ERROR
deriving DecidableEq, Repr

/-- `TasterResult` from `plugins/models.py`.  The float field
`duration_seconds` is never read by the dispatcher or the coordinator and is
not modelled. -/
structure TasterResult where
  taster_name : String
  status : TasterStatus
  message : String := ""
  logs : List String := []
deriving DecidableEq, Repr

/-- One registered plugin implementing the three hookspecs of
`plugins/hookspecs.py` with non-`None` results.  `test_project` returning
`Except.error` models the hook implementation raising an exception. -/
structure Taster where
  name : String
  can_handle : TasterContext → Bool
  test_project : ProjectInfo → Except String TasterResult

/-- `pm.hook.get_taster_name()`: one result per registered plugin, in the
hook-call order (the order of the plugin list). -/
def hook_get_taster_name (pm : List Taster) : List String :=
  pm.map (fun t => t.name)

/-- `pm.hook.can_handle(context=...)`: one result per registered plugin, in
the same hook-call order. -/
def hook_can_handle (pm : List Taster) (ctx : TasterContext) : List Bool :=
  pm.map (fun t => t.can_handle ctx)

/-- `pm.hook.test_project(project_info=...)`: every plugin's hook runs in
hook-call order and the results are collected; pluggy does not catch
hookimpl exceptions, so the first plugin that raises aborts the whole hook
call and the exception propagates to the caller. -/
def hook_test_project : List Taster → ProjectInfo →
    Except String (List TasterResult)
  | [], _ => Except.ok []
  | t :: ts, info =>
    match t.test_project info with
    | Except.error e => Except.error e
    | Except.ok r =>
      match hook_test_project ts info with
      | Except.error e => Except.error e
      | Except.ok rs => Except.ok (r :: rs)

/-- `PluginManager.get_taster_names`: the hook results with falsy (empty)
names dropped. -/
def get_taster_names (pm : List Taster) : List String :=
  (hook_get_taster_name pm).filter (fun n => n ≠ "")

/-- Python `zip(xs, ys, strict=True)`: `none` models the `ValueError` raised
on a length mismatch. -/
def zipStrict {α β : Type} : List α → List β → Option (List (α × β))
  | [], [] => some []
  | a :: as, b :: bs =>
    match zipStrict as bs with
    | some l => some ((a, b) :: l)
    | none => none
  | _, _ => none

/-- `PluginManager.get_applicable_tasters`: strict-zip the filtered names
with the `can_handle` results and keep the names answering `True`. -/
def get_applicable_tasters (pm : List Taster) (ctx : TasterContext) :
    Option (List String) :=
  match zipStrict (get_taster_names pm) (hook_can_handle pm ctx) with
  | none => none
  | some pairs => some ((pairs.filter (fun p => p.2)).map (fun p => p.1))

/-- `PluginManager.run_tasters`: default the name list to the applicable
tasters, invoke `test_project` on every registered plugin, then keep the
results whose name is in the requested list.  `Except.error` models the
uncaught exceptions that can escape: a strict-zip `ValueError` or a raising
`test_project` hookimpl. -/
def run_tasters (pm : List Taster) (project_info : ProjectInfo)
    (taster_names : Option (List String)) : Except String (List TasterResult) :=
  match (match taster_names with
         | some ns => some ns
         | none => get_applicable_tasters pm project_info.taster_context) with
  | none => Except.error "zip() argument lengths differ"
  | some ns =>
    match hook_test_project pm project_info with
    | Except.error e => Except.error e
    | Except.ok all_results =>
      match zipStrict (get_taster_names pm) all_results with
      | none => Except.error "zip() argument lengths differ"
      | some pairs =>
        Except.ok ((pairs.filter (fun p => ns.contains p.1)).map (fun p => p.2))

/-- Line 181 of `tui/screens/execution.py`:
`success = all(r.status == TasterStatus.SUCCESS for r in taster_results)`. -/
def computeOverallSuccess (taster_results : List TasterResult) : Bool :=
  taster_results.all (fun r => r.status == TasterStatus.SUCCESS)

/-- Whether an `Except` computation finished without raising. -/
def exceptIsOk {ε α : Type} : Except ε α → Bool
  | Except.ok _ => true
  | Except.error _ => false

/-- Whether a combination-engine call failed with the `Unknown option`
`ValueError`. -/
def isUnknownOptionErr {α : Type} : Except CombinationError α → Bool
  | Except.error (CombinationError.unknownOption _) => true
  | _ => false

/-- The pairs written by the fixed-defaults loop of `buildCombo`: the name
and default of every fixed option, in declaration order. -/
def fixedPairs (options : List TemplateOption)
    (selections : List (String × List String)) : List (String × String) :=
  (options.filter (fun o => isFixed selections o.name)).map
    (fun o => (o.name, o.default))

/-- The value the code stores in a combination context at one key: the fixed
defaults are written last, then the varying assignments, over the base
context (`lastLookup` because repeated writes keep the final one). -/
def codeContext (options : List TemplateOption)
    (selections : List (String × List String)) (base : List (String × PyVal))
    (assign : List (String × String)) (k : String) : Option PyVal :=
  match lastLookup (fixedPairs options selections) k with
  | some d => some (PyVal.str d)
  | none =>
    match lastLookup assign k with
    | some v => some (PyVal.str v)
    | none => firstLookup base k

/-- The first selection key, in iteration order, that names no option. -/
def firstUnknown (options : List TemplateOption)
    (selections : List (String × List String)) : Option String :=
  (selections.find? (fun p => (option_lookup options p.1).isNone)).map
    (fun p => p.1)

/-- Template option used in concrete witnesses (from the repository's own
test data). -/
def oDb : TemplateOption :=
  { name := "db", choices := ["postgres", "mysql"], default := "postgres" }

/-- Second template option used in concrete witnesses. -/
def oCache : TemplateOption :=
  { name := "cache", choices := ["redis", "memcached"], default := "redis" }

/-- Template metadata used in concrete dispatch witnesses. -/
def mdSample : TemplateMetadata := { source := "tpl" }

/-- Project record used in concrete dispatch witnesses. -/
def piSample : ProjectInfo :=
  { path := "out/proj", cookiecutter_context := [("db", "postgres")]
    template_metadata := mdSample }

/-- A successful verdict carrying the given taster name. -/
def resOf (n : String) : TasterResult :=
  { taster_name := n, status := TasterStatus.SUCCESS, message := "ok" }

/-- A validator that applies to every project and evaluates successfully. -/
def tGood : Taster :=
  { name := "good", can_handle := fun _ => true
    test_project := fun _ => Except.ok (resOf "good") }

/-- A validator whose `can_handle` answers `False`. -/
def tNotApplicable : Taster :=
  { name := "no", can_handle := fun _ => false
    test_project := fun _ => Except.ok (resOf "no") }

/-- A validator whose `test_project` raises. -/
def tRaising : Taster :=
  { name := "bad", can_handle := fun _ => true
    test_project := fun _ => Except.error "boom" }

/-- First of two validators sharing the name `x`; it is applicable. -/
def tDupA : Taster :=
  { name := "x", can_handle := fun _ => true
    test_project := fun _ => Except.ok (resOf "first-x") }

/-- Second of two validators sharing the name `x`; it is not applicable. -/
def tDupB : Taster :=
  { name := "x", can_handle := fun _ => false
    test_project := fun _ => Except.ok (resOf "second-x") }

lemma firstLookup_map_update {α : Type} (c : List (String × α)) (k k' : String)
    (v : α) :
    firstLookup (c.map (fun p => if p.1 = k then (k, v) else p)) k' =
      if k' = k then (firstLookup c k).map (fun _ => v) else firstLookup c k' := by
  induction c with
  | nil => by_cases h : k' = k <;> simp [firstLookup, h]
  | cons p rest ih =>
    by_cases hp : p.1 = k
    · by_cases hk : k' = k
      · subst hk; simp [firstLookup, hp, ih]
      · simp [firstLookup, hp, hk, ih, Ne.symm hk]
    · by_cases hk : k' = k
      · subst hk
        have : ¬ p.1 = k' := hp
        simp [firstLookup, hp, this, ih]
      · by_cases hpk : p.1 = k'
        · simp [firstLookup, hp, hpk, ih, hk]
        · simp [firstLookup, hp, hpk, ih, hk]

lemma firstLookup_append {α : Type} (c d : List (String × α)) (k : String) :
    firstLookup (c ++ d) k =
      match firstLookup c k with
      | some w => some w
      | none => firstLookup d k := by
  induction c with
  | nil => simp [firstLookup]
  | cons p rest ih =>
    by_cases hp : p.1 = k <;> simp [firstLookup, hp, ih]

lemma firstLookup_dictInsert {α : Type} (c : List (String × α)) (k k' : String)
    (v : α) :
    firstLookup (dictInsert c k v) k' =
      if k' = k then some v else firstLookup c k' := by
  unfold dictInsert
  by_cases hs : (firstLookup c k).isSome
  · rw [if_pos hs, firstLookup_map_update]
    by_cases hk : k' = k
    · subst hk
      obtain ⟨w, hw⟩ := Option.isSome_iff_exists.mp hs
      simp [hw]
    · simp [hk]
  · rw [if_neg hs, firstLookup_append]
    have hnone : firstLookup c k = none := Option.not_isSome_iff_eq_none.mp hs
    by_cases hk : k' = k
    · subst hk; simp [hnone, firstLookup]
    · cases h : firstLookup c k' <;> simp [firstLookup, hk, h, Ne.symm hk]

lemma lastLookup_foldl {α : Type} (l : List (String × α)) (k : String)
    (acc : Option α) :
    l.foldl (fun a p => if p.1 = k then some p.2 else a) acc =
      match lastLookup l k with
      | some v => some v
      | none => acc := by
  induction l generalizing acc with
  | nil => simp [lastLookup]
  | cons p rest ih =>
    show rest.foldl _ (if p.1 = k then some p.2 else acc) = _
    rw [ih]
    have hrest : lastLookup (p :: rest) k =
        rest.foldl (fun a q => if q.1 = k then some q.2 else a)
          (if p.1 = k then some p.2 else none) := rfl
    rw [hrest, ih]
    cases lastLookup rest k with
    | some v => simp
    | none => by_cases hp : p.1 = k <;> simp [hp]

lemma lastLookup_cons {α : Type} (p : String × α) (rest : List (String × α))
    (k : String) :
    lastLookup (p :: rest) k =
      match lastLookup rest k with
      | some v => some v
      | none => if p.1 = k then some p.2 else none := by
  show rest.foldl _ (if p.1 = k then some p.2 else none) = _
  rw [lastLookup_foldl]

lemma firstLookup_eq_none {α : Type} (l : List (String × α)) (k : String)
    (h : k ∉ l.map (fun p => p.1)) : firstLookup l k = none := by
  induction l with
  | nil => rfl
  | cons p rest ih =>
    simp only [List.map_cons, List.mem_cons] at h
    push_neg at h
    simp [firstLookup, Ne.symm h.1, ih h.2]

lemma lastLookup_eq_none {α : Type} (l : List (String × α)) (k : String)
    (h : k ∉ l.map (fun p => p.1)) : lastLookup l k = none := by
  induction l with
  | nil => rfl
  | cons p rest ih =>
    simp only [List.map_cons, List.mem_cons] at h
    push_neg at h
    rw [lastLookup_cons, ih h.2]
    simp [Ne.symm h.1]

lemma mem_of_firstLookup {α : Type} (l : List (String × α)) (k : String) (v : α)
    (h : firstLookup l k = some v) : (k, v) ∈ l := by
  induction l with
  | nil => simp [firstLookup] at h
  | cons p rest ih =>
    by_cases hp : p.1 = k
    · simp only [firstLookup, hp, if_pos] at h
      cases h
      cases p
      subst hp
      exact List.mem_cons_self _ _
    · simp only [firstLookup, hp, if_neg, not_false_iff] at h
      exact List.mem_cons_of_mem _ (ih h)

lemma firstLookup_of_mem {α : Type} (l : List (String × α)) (k : String) (v : α)
    (hnd : (l.map (fun p => p.1)).Nodup) (h : (k, v) ∈ l) :
    firstLookup l k = some v := by
  induction l with
  | nil => simp at h
  | cons p rest ih =>
    simp only [List.map_cons, List.nodup_cons] at hnd
    rcases List.mem_cons.mp h with h1 | h2
    · subst h1; simp [firstLookup]
    · have hp : p.1 ≠ k := by
        intro he
        exact hnd.1 (he ▸ (List.mem_map.mpr ⟨(k, v), h2, rfl⟩))
      simp [firstLookup, hp, ih hnd.2 h2]

lemma lastLookup_eq_firstLookup {α : Type} (l : List (String × α)) (k : String)
    (hnd : (l.map (fun p => p.1)).Nodup) : lastLookup l k = firstLookup l k := by
  induction l with
  | nil => rfl
  | cons p rest ih =>
    simp only [List.map_cons, List.nodup_cons] at hnd
    rw [lastLookup_cons, ih hnd.2]
    by_cases hp : p.1 = k
    · have : k ∉ rest.map (fun q => q.1) := hp ▸ hnd.1
      rw [firstLookup_eq_none rest k this]
      simp [firstLookup, hp]
    · cases h : firstLookup rest k <;> simp [firstLookup, hp, h]

lemma firstLookup_foldl_insert {α β : Type} (g : β → α)
    (l : List (String × β)) (c0 : List (String × α)) (k : String) :
    firstLookup (l.foldl (fun c p => dictInsert c p.1 (g p.2)) c0) k =
      match lastLookup l k with
      | some v => some (g v)
      | none => firstLookup c0 k := by
  induction l generalizing c0 with
  | nil => simp [lastLookup]
  | cons p rest ih =>
    show firstLookup (rest.foldl _ (dictInsert c0 p.1 (g p.2))) k = _
    rw [ih, lastLookup_cons]
    cases lastLookup rest k with
    | some v => simp
    | none =>
      rw [firstLookup_dictInsert]
      by_cases hp : p.1 = k
      · subst hp; simp
      · have hk : ¬ k = p.1 := fun he => hp he.symm
        simp [hp, hk]

lemma foldl_filter_cond {α β : Type} (p : β → Bool) (g : α → β → α)
    (l : List β) (c0 : α) :
    l.foldl (fun c x => if p x then g c x else c) c0 =
      (l.filter p).foldl g c0 := by
  induction l generalizing c0 with
  | nil => rfl
  | cons x rest ih =>
    by_cases hx : p x
    · simp [List.filter_cons, hx, ih]
    · simp [List.filter_cons, hx, ih]

lemma option_lookup_map_default (options : List TemplateOption) (k : String)
    (acc : Option TemplateOption) :
    options.foldl (fun a o => if o.name = k then some o.default else a)
        (acc.map (fun o => o.default)) =
      (options.foldl (fun a o => if o.name = k then some o else a) acc).map
        (fun o => o.default) := by
  induction options generalizing acc with
  | nil => rfl
  | cons o rest ih =>
    show rest.foldl _ (if o.name = k then some o.default else acc.map _) = _
    by_cases ho : o.name = k
    · simp only [ho, if_pos]
      have : (some o.default : Option String) =
          (some o : Option TemplateOption).map (fun o => o.default) := rfl
      rw [this, ih]
      simp [ho]
    · simp only [ho, if_neg, not_false_iff]
      rw [ih]
      simp [ho]

lemma lastLookup_name_default (options : List TemplateOption) (k : String) :
    lastLookup (options.map (fun o => (o.name, o.default))) k =
      (option_lookup options k).map (fun o => o.default) := by
  unfold lastLookup option_lookup
  rw [List.foldl_map]
  have := option_lookup_map_default options k none
  simpa using this

lemma option_lookup_foldl_acc (rest : List TemplateOption) (k : String)
    (acc : Option TemplateOption) :
    rest.foldl (fun a o => if o.name = k then some o else a) acc =
      match option_lookup rest k with
      | some o => some o
      | none => acc := by
  induction rest generalizing acc with
  | nil => simp [option_lookup]
  | cons x rest ih =>
    rw [List.foldl_cons, ih]
    have hx : option_lookup (x :: rest) k =
        rest.foldl (fun a o => if o.name = k then some o else a)
          (if x.name = k then some x else none) := rfl
    rw [hx, ih]
    cases option_lookup rest k with
    | some v => simp
    | none => by_cases hxk : x.name = k <;> simp [hxk]

lemma option_lookup_cons (x : TemplateOption) (rest : List TemplateOption)
    (k : String) :
    option_lookup (x :: rest) k =
      match option_lookup rest k with
      | some o => some o
      | none => if x.name = k then some x else none := by
  have hx : option_lookup (x :: rest) k =
      rest.foldl (fun a o => if o.name = k then some o else a)
        (if x.name = k then some x else none) := rfl
  rw [hx, option_lookup_foldl_acc]

lemma option_lookup_mem (options : List TemplateOption) (k : String)
    (o : TemplateOption) (h : option_lookup options k = some o) :
    o ∈ options ∧ o.name = k := by
  induction options generalizing o with
  | nil => simp [option_lookup, List.foldl] at h
  | cons x rest ih =>
    rw [option_lookup_cons] at h
    cases hrest : option_lookup rest k with
    | some o' =>
      rw [hrest] at h
      cases h
      obtain ⟨hm, hn⟩ := ih o hrest
      exact ⟨List.mem_cons_of_mem _ hm, hn⟩
    | none =>
      rw [hrest] at h
      by_cases hx : x.name = k
      · rw [if_pos hx] at h
        cases h
        exact ⟨List.mem_cons_self _ _, hx⟩
      · rw [if_neg hx] at h
        cases h

lemma option_lookup_eq_none_iff (options : List TemplateOption) (k : String) :
    option_lookup options k = none ↔ ∀ o ∈ options, o.name ≠ k := by
  induction options with
  | nil => simp [option_lookup, List.foldl]
  | cons x rest ih =>
    rw [option_lookup_cons]
    cases hrest : option_lookup rest k with
    | some o' =>
      simp only []
      constructor
      · intro h; cases h
      · intro h
        obtain ⟨hm, hn⟩ := option_lookup_mem rest k o' hrest
        exact absurd hn (h o' (List.mem_cons_of_mem _ hm))
    | none =>
      rw [hrest] at ih
      by_cases hx : x.name = k
      · simp only [hx, if_pos]
        constructor
        · intro h; cases h
        · intro h
          exact absurd hx (h x (List.mem_cons_self _ _))
      · simp only [hx, if_neg, not_false_iff]
        constructor
        · intro _ o hm
          rcases List.mem_cons.mp hm with h1 | h2
          · exact h1 ▸ hx
          · exact (ih.mp rfl) o h2
        · intro _; trivial

lemma option_lookup_isSome_iff (options : List TemplateOption) (k : String) :
    (option_lookup options k).isSome ↔ ∃ o ∈ options, o.name = k := by
  constructor
  · intro h
    obtain ⟨o, ho⟩ := Option.isSome_iff_exists.mp h
    obtain ⟨hm, hn⟩ := option_lookup_mem options k o ho
    exact ⟨o, hm, hn⟩
  · rintro ⟨o, hm, hn⟩
    cases hl : option_lookup options k with
    | some o' => simp
    | none =>
      exact absurd hn ((option_lookup_eq_none_iff options k).mp hl o hm)

lemma option_lookup_self (options : List TemplateOption)
    (hnd : (options.map (fun o => o.name)).Nodup) (o : TemplateOption)
    (hm : o ∈ options) : option_lookup options o.name = some o := by
  induction options with
  | nil => simp at hm
  | cons x rest ih =>
    simp only [List.map_cons, List.nodup_cons] at hnd
    rw [option_lookup_cons]
    rcases List.mem_cons.mp hm with h1 | h2
    · subst h1
      have : option_lookup rest o.name = none :=
        (option_lookup_eq_none_iff rest o.name).mpr (by
          intro o' hm' he
          exact hnd.1 (he ▸ List.mem_map.mpr ⟨o', hm', rfl⟩))
      rw [this]
      simp
    · rw [ih hnd.2 h2]

lemma varyingPairs_mem (options : List TemplateOption)
    (selections : List (String × List String)) (n : String) (vs : List String) :
    (n, vs) ∈ varyingPairs options selections ↔
      (∃ o ∈ options, o.name = n) ∧ selLookup selections n = some vs ∧
        vs.isEmpty = false := by
  unfold varyingPairs
  rw [List.mem_filterMap]
  constructor
  · rintro ⟨o, hm, hf⟩
    cases hsel : selLookup selections o.name with
    | none => rw [hsel] at hf; cases hf
    | some ws =>
      rw [hsel] at hf
      by_cases hw : ws.isEmpty
      · simp [hw] at hf
      · simp [hw] at hf
        obtain ⟨hn, hws⟩ := hf
        subst hn
        subst hws
        exact ⟨⟨o, hm, rfl⟩, hsel, Bool.eq_false_iff.mpr hw⟩
  · rintro ⟨⟨o, hm, hn⟩, hsel, hvs⟩
    refine ⟨o, hm, ?_⟩
    rw [hn, hsel]
    simp [hvs]

lemma varyingPairs_keys (options : List TemplateOption)
    (selections : List (String × List String)) :
    (varyingPairs options selections).map (fun p => p.1) =
      (options.filter (fun o => !(isFixed selections o.name))).map
        (fun o => o.name) := by
  induction options with
  | nil => rfl
  | cons o rest ih =>
    unfold varyingPairs
    rw [List.filterMap_cons, List.filter_cons]
    unfold varyingPairs at ih
    cases hsel : selLookup selections o.name with
    | none => simpa [isFixed, hsel] using ih
    | some vs =>
      by_cases hv : vs.isEmpty
      · simpa [isFixed, hsel, hv] using ih
      · simpa [isFixed, hsel, hv] using ih

lemma varyingPairs_keys_nodup (options : List TemplateOption)
    (selections : List (String × List String))
    (hnd : (options.map (fun o => o.name)).Nodup) :
    ((varyingPairs options selections).map (fun p => p.1)).Nodup := by
  rw [varyingPairs_keys]
  have hsub : ((options.filter (fun o => !(isFixed selections o.name))).map
      (fun o => o.name)).Sublist (options.map (fun o => o.name)) :=
    (List.filter_sublist options).map (fun o => o.name)
  exact List.Nodup.sublist hsub hnd

lemma varyingPairs_empty_iff (options : List TemplateOption)
    (selections : List (String × List String)) :
    varyingPairs options selections = [] ↔
      ∀ o ∈ options, isFixed selections o.name = true := by
  unfold varyingPairs
  rw [List.filterMap_eq_nil_iff]
  constructor
  · intro h o hm
    have hfo := h o hm
    unfold isFixed
    cases hsel : selLookup selections o.name with
    | none => simp
    | some vs =>
      rw [hsel] at hfo
      by_cases hv : vs.isEmpty
      · simp [hv]
      · simp [hv] at hfo
  · intro h o hm
    have hfo := h o hm
    unfold isFixed at hfo
    cases hsel : selLookup selections o.name with
    | none => simp [hsel]
    | some vs =>
      rw [hsel] at hfo
      simp at hfo
      simp [hsel, hfo]

lemma forall₂_map_map {σ γ δ : Type} (l : List σ) (R : γ → δ → Prop)
    (f : σ → γ) (g : σ → δ) (h : ∀ x ∈ l, R (f x) (g x)) :
    List.Forall₂ R (l.map f) (l.map g) := by
  induction l with
  | nil => exact List.Forall₂.nil
  | cons x rest ih =>
    exact List.Forall₂.cons (h x (List.mem_cons_self _ _))
      (ih (fun y hy => h y (List.mem_cons_of_mem _ hy)))

lemma cartesianAssignments_eq (l : List (String × List String)) :
    cartesianAssignments l =
      (listProduct (l.map (fun p => p.2))).map
        (fun tpl => (l.map (fun p => p.1)).zip tpl) := by
  induction l with
  | nil => rfl
  | cons p rest ih =>
    cases p with
    | mk n vs =>
      show vs.flatMap
          (fun v => (cartesianAssignments rest).map (fun a => (n, v) :: a)) = _
      rw [ih]
      simp [listProduct, List.map_flatMap, List.map_map, Function.comp_def,
        List.zip_cons_cons]

lemma listProduct_mem (ls : List (List String)) (tpl : List String)
    (h : tpl ∈ listProduct ls) :
    List.Forall₂ (fun v vs => v ∈ vs) tpl ls := by
  induction ls generalizing tpl with
  | nil =>
    simp only [listProduct, List.mem_singleton] at h
    subst h
    exact List.Forall₂.nil
  | cons vs rest ih =>
    simp only [listProduct, List.mem_flatMap, List.mem_map] at h
    obtain ⟨v, hv, t, ht, rfl⟩ := h
    exact List.Forall₂.cons hv (ih t ht)

lemma sum_map_length_const {β : Type} (vs : List β) (c : Nat) :
    (vs.map (fun _ => c)).sum = vs.length * c := by
  induction vs with
  | nil => simp
  | cons v rest ih => simp [ih, Nat.succ_mul, Nat.add_comm]

lemma listProduct_length (ls : List (List String)) :
    (listProduct ls).length = (ls.map (fun vs => vs.length)).prod := by
  induction ls with
  | nil => rfl
  | cons vs rest ih =>
    simp only [listProduct, List.length_flatMap, List.map_map,
      Function.comp_def, List.length_map, List.map_cons, List.prod_cons]
    rw [sum_map_length_const, ih]

lemma validate_ok_iff (options : List TemplateOption)
    (selections : List (String × List String)) :
    validate_selections options selections = Except.ok () ↔
      ∀ p ∈ selections, ∃ o, option_lookup options p.1 = some o ∧
        ∀ v ∈ p.2, v ∈ o.choices := by
  induction selections with
  | nil => simp [validate_selections]
  | cons p rest ih =>
    cases p with
    | mk n vs =>
      have hunf : validate_selections options ((n, vs) :: rest) =
          match option_lookup options n with
          | none => Except.error (CombinationError.unknownOption n)
          | some o =>
            if (vs.filter (fun v => v ∉ o.choices)).isEmpty then
              validate_selections options rest
            else Except.error (CombinationError.invalidChoice n
              (vs.filter (fun v => v ∉ o.choices)) o.choices) := rfl
      rw [hunf]
      cases hol : option_lookup options n with
      | none =>
        simp only []
        constructor
        · intro h; cases h
        · intro h
          obtain ⟨o, ho, _⟩ := h (n, vs) (List.mem_cons_self _ _)
          rw [hol] at ho; cases ho
      | some o =>
        simp only []
        by_cases hv : (vs.filter (fun v => v ∉ o.choices)).isEmpty
        · rw [if_pos hv, ih]
          constructor
          · intro h q hq
            rcases List.mem_cons.mp hq with h1 | h2
            · subst h1
              refine ⟨o, hol, ?_⟩
              intro v hvm
              by_contra hcon
              have hmem : v ∈ vs.filter (fun v => v ∉ o.choices) :=
                List.mem_filter.mpr ⟨hvm, by simpa using hcon⟩
              rw [List.isEmpty_iff] at hv
              rw [hv] at hmem
              cases hmem
            · exact h q h2
          · intro h q hq
            exact h q (List.mem_cons_of_mem _ hq)
        · rw [if_neg hv]
          constructor
          · intro h; cases h
          · intro h
            obtain ⟨o', ho', hval⟩ := h (n, vs) (List.mem_cons_self _ _)
            rw [hol] at ho'
            cases ho'
            have hemp : (vs.filter (fun v => v ∉ o.choices)).isEmpty = true := by
              rw [List.isEmpty_iff, List.filter_eq_nil_iff]
              intro v hvm
              simpa using hval v hvm
            exact absurd hemp hv

lemma buildCombo_lookup (options : List TemplateOption)
    (selections : List (String × List String)) (base : List (String × PyVal))
    (varNames : List String) (tpl : List String) (k : String) :
    firstLookup (buildCombo options selections base varNames tpl) k =
      codeContext options selections base (varNames.zip tpl) k := by
  unfold buildCombo codeContext
  rw [foldl_filter_cond (fun o => isFixed selections o.name)
    (fun c o => dictInsert c o.name (PyVal.str o.default)) options]
  have hmap : (options.filter (fun o => isFixed selections o.name)).foldl
      (fun c o => dictInsert c o.name (PyVal.str o.default))
      ((varNames.zip tpl).foldl
        (fun c p => dictInsert c p.1 (PyVal.str p.2)) base) =
      (fixedPairs options selections).foldl
        (fun c p => dictInsert c p.1 (PyVal.str p.2))
        ((varNames.zip tpl).foldl
          (fun c p => dictInsert c p.1 (PyVal.str p.2)) base) := by
    unfold fixedPairs
    rw [List.foldl_map]
  rw [hmap, firstLookup_foldl_insert, firstLookup_foldl_insert]
  cases lastLookup (fixedPairs options selections) k <;>
    cases lastLookup (varNames.zip tpl) k <;> rfl

lemma generate_combinations_char (options : List TemplateOption)
    (selections : List (String × List String)) (base : List (String × PyVal))
    (hvalid : ∀ p ∈ selections, ∃ o, option_lookup options p.1 = some o ∧
      ∀ v ∈ p.2, v ∈ o.choices) :
    ∃ l, generate_combinations options selections base = Except.ok l ∧
      List.Forall₂
        (fun c a => ∀ k, firstLookup c k =
          codeContext options selections base a k)
        l (cartesianAssignments (varyingPairs options selections)) := by
  have hok : validate_selections options selections = Except.ok () :=
    (validate_ok_iff _ _).mpr hvalid
  by_cases hv : (varyingPairs options selections).isEmpty
  · have hempty : varyingPairs options selections = [] :=
      List.isEmpty_iff.mp hv
    refine ⟨[options.foldl
      (fun c o => dictInsert c o.name (PyVal.str o.default)) base], ?_, ?_⟩
    · simp only [generate_combinations, hok, hv, if_pos]
    · rw [hempty]
      refine List.Forall₂.cons ?_ List.Forall₂.nil
      intro k
      have hall : ∀ o ∈ options, isFixed selections o.name = true :=
        (varyingPairs_empty_iff _ _).mp hempty
      have hfilter :
          options.filter (fun o => isFixed selections o.name) = options :=
        List.filter_eq_self.mpr hall
      unfold codeContext fixedPairs
      rw [hfilter]
      have hconv : options.foldl
          (fun c o => dictInsert c o.name (PyVal.str o.default)) base =
          (options.map (fun o => (o.name, o.default))).foldl
            (fun c p => dictInsert c p.1 (PyVal.str p.2)) base := by
        rw [List.foldl_map]
      rw [hconv, firstLookup_foldl_insert]
      cases lastLookup (options.map (fun o => (o.name, o.default))) k <;> rfl
  · refine ⟨(listProduct ((varyingPairs options selections).map
      (fun p => p.2))).map
        (fun tpl => buildCombo options selections base
          ((varyingPairs options selections).map (fun p => p.1)) tpl), ?_, ?_⟩
    · have hfalse : (varyingPairs options selections).isEmpty = false :=
        Bool.eq_false_iff.mpr hv
      simp [generate_combinations, hok, hfalse]
    · rw [cartesianAssignments_eq]
      apply forall₂_map_map
      intro tpl _ k
      exact buildCombo_lookup options selections base _ tpl k

lemma forall₂_imp_mem {γ δ : Type} {R S : γ → δ → Prop} :
    ∀ {l₁ : List γ} {l₂ : List δ}, List.Forall₂ R l₁ l₂ →
      (∀ x ∈ l₁, ∀ y ∈ l₂, R x y → S x y) → List.Forall₂ S l₁ l₂ := by
  intro l₁ l₂ h
  induction h with
  | nil => intro _; exact List.Forall₂.nil
  | cons hr _ ih =>
    intro hm
    refine List.Forall₂.cons
      (hm _ (List.mem_cons_self _ _) _ (List.mem_cons_self _ _) hr) ?_
    exact ih (fun x hx y hy => hm x (List.mem_cons_of_mem _ hx) y
      (List.mem_cons_of_mem _ hy))

lemma forall₂_mem_left {γ δ : Type} {R : γ → δ → Prop} :
    ∀ {l₁ : List γ} {l₂ : List δ}, List.Forall₂ R l₁ l₂ →
      ∀ x ∈ l₁, ∃ y ∈ l₂, R x y := by
  intro l₁ l₂ h
  induction h with
  | nil => intro x hx; cases hx
  | cons hr _ ih =>
    intro x hx
    rcases List.mem_cons.mp hx with h1 | h2
    · exact ⟨_, List.mem_cons_self _ _, h1 ▸ hr⟩
    · obtain ⟨y, hy, hxy⟩ := ih x h2
      exact ⟨y, List.mem_cons_of_mem _ hy, hxy⟩

lemma forall₂_mem_right {γ δ : Type} {R : γ → δ → Prop} :
    ∀ {l₁ : List γ} {l₂ : List δ}, List.Forall₂ R l₁ l₂ →
      ∀ y ∈ l₂, ∃ x ∈ l₁, R x y := by
  intro l₁ l₂ h
  induction h with
  | nil => intro y hy; cases hy
  | cons hr _ ih =>
    intro y hy
    rcases List.mem_cons.mp hy with h1 | h2
    · exact ⟨_, List.mem_cons_self _ _, h1 ▸ hr⟩
    · obtain ⟨x, hx, hxy⟩ := ih y h2
      exact ⟨x, List.mem_cons_of_mem _ hx, hxy⟩

lemma cartesianAssignments_mem_forall (l : List (String × List String))
    (a : List (String × String)) (h : a ∈ cartesianAssignments l) :
    List.Forall₂ (fun (p : String × String) (q : String × List String) =>
      p.1 = q.1 ∧ p.2 ∈ q.2) a l := by
  induction l generalizing a with
  | nil =>
    simp only [cartesianAssignments, List.mem_singleton] at h
    subst h
    exact List.Forall₂.nil
  | cons q rest ih =>
    cases q with
    | mk n vs =>
      simp only [cartesianAssignments, List.mem_flatMap, List.mem_map] at h
      obtain ⟨v, hv, a', ha', rfl⟩ := h
      exact List.Forall₂.cons ⟨rfl, hv⟩ (ih a' ha')

lemma forall₂_assign_keys (a : List (String × String))
    (l : List (String × List String))
    (h : List.Forall₂ (fun (p : String × String) (q : String × List String) =>
      p.1 = q.1 ∧ p.2 ∈ q.2) a l) :
    a.map (fun p => p.1) = l.map (fun q => q.1) := by
  induction h with
  | nil => rfl
  | cons hr _ ih => simp [hr.1, ih]

lemma fixedPairs_keys (options : List TemplateOption)
    (selections : List (String × List String)) :
    (fixedPairs options selections).map (fun p => p.1) =
      (options.filter (fun o => isFixed selections o.name)).map
        (fun o => o.name) := by
  unfold fixedPairs
  rw [List.map_map]
  rfl

lemma fixedPairs_keys_nodup (options : List TemplateOption)
    (selections : List (String × List String))
    (hnd : (options.map (fun o => o.name)).Nodup) :
    ((fixedPairs options selections).map (fun p => p.1)).Nodup := by
  rw [fixedPairs_keys]
  have hsub : ((options.filter (fun o => isFixed selections o.name)).map
      (fun o => o.name)).Sublist (options.map (fun o => o.name)) :=
    (List.filter_sublist options).map (fun o => o.name)
  exact List.Nodup.sublist hsub hnd

lemma fixedPairs_mem (options : List TemplateOption)
    (selections : List (String × List String)) (k d : String) :
    (k, d) ∈ fixedPairs options selections ↔
      ∃ o ∈ options, isFixed selections o.name = true ∧ o.name = k ∧
        o.default = d := by
  unfold fixedPairs
  simp only [List.mem_map, List.mem_filter, Prod.mk.injEq]
  constructor
  · rintro ⟨o, ⟨hm, hfix⟩, hn, hd⟩
    exact ⟨o, hm, hfix, hn, hd⟩
  · rintro ⟨o, hm, hfix, hn, hd⟩
    exact ⟨o, ⟨hm, hfix⟩, hn, hd⟩

lemma isFixed_false_iff (selections : List (String × List String))
    (n : String) :
    isFixed selections n = false ↔
      ∃ vs, selLookup selections n = some vs ∧ vs.isEmpty = false := by
  unfold isFixed
  cases hsel : selLookup selections n with
  | none => simp
  | some vs => simp

lemma lastLookup_fixedPairs_of_not_fixed (options : List TemplateOption)
    (selections : List (String × List String)) (k : String)
    (h : isFixed selections k = false) :
    lastLookup (fixedPairs options selections) k = none := by
  apply lastLookup_eq_none
  intro hmem
  rw [fixedPairs_keys] at hmem
  obtain ⟨o, hom, hok⟩ := List.mem_map.mp hmem
  obtain ⟨_, hfix⟩ := List.mem_filter.mp hom
  rw [hok] at hfix
  rw [h] at hfix
  cases hfix

lemma codeContext_eq_specContext (options : List TemplateOption)
    (selections : List (String × List String)) (base : List (String × PyVal))
    (assign : List (String × String))
    (hnames : (options.map (fun o => o.name)).Nodup)
    (ha : List.Forall₂ (fun (p : String × String) (q : String × List String) =>
      p.1 = q.1 ∧ p.2 ∈ q.2) assign (varyingPairs options selections))
    (k : String) :
    codeContext options selections base assign k =
      specContext options selections base assign k := by
  have hfk : ((fixedPairs options selections).map (fun p => p.1)).Nodup :=
    fixedPairs_keys_nodup options selections hnames
  have hak : (assign.map (fun p => p.1)).Nodup := by
    rw [forall₂_assign_keys assign _ ha]
    exact varyingPairs_keys_nodup options selections hnames
  unfold codeContext specContext
  rw [lastLookup_eq_firstLookup _ _ hfk, lastLookup_eq_firstLookup _ _ hak]
  have hfixed_eq : (options.filter (fun o => isFixed selections o.name)).map
      (fun o => (o.name, o.default)) = fixedPairs options selections := rfl
  rw [hfixed_eq]
  cases hf : firstLookup (fixedPairs options selections) k with
  | some d =>
    cases hasg : firstLookup assign k with
    | none => rfl
    | some v =>
      exfalso
      have hmem := mem_of_firstLookup _ _ _ hasg
      obtain ⟨q, hq, hpq⟩ := forall₂_mem_left ha _ hmem
      have hq1 : q.1 = k := by rw [← hpq.1]
      have hvary : isFixed selections k = false := by
        obtain ⟨hin, hsel, hne⟩ := (varyingPairs_mem options selections
          q.1 q.2).mp (by cases q; exact hq)
        rw [hq1] at hsel
        exact (isFixed_false_iff selections k).mpr ⟨q.2, hsel, hne⟩
      have hmemf := mem_of_firstLookup _ _ _ hf
      obtain ⟨o, _, hfix, hnk, _⟩ :=
        (fixedPairs_mem options selections k d).mp hmemf
      rw [hnk] at hfix
      rw [hvary] at hfix
      cases hfix
  | none =>
    cases hasg : firstLookup assign k with
    | none => rfl
    | some v => rfl

lemma validate_selections_unknown (options : List TemplateOption)
    (selections : List (String × List String))
    (hval : ∀ p ∈ selections, ∀ o, option_lookup options p.1 = some o →
      ∀ v ∈ p.2, v ∈ o.choices)
    (hunk : ∃ p ∈ selections, option_lookup options p.1 = none) :
    ∃ n, firstUnknown options selections = some n ∧
      validate_selections options selections =
        Except.error (CombinationError.unknownOption n) := by
  induction selections with
  | nil => obtain ⟨p, hp, _⟩ := hunk; cases hp
  | cons p rest ih =>
    cases p with
    | mk n vs =>
      cases hol : option_lookup options n with
      | none =>
        refine ⟨n, ?_, ?_⟩
        · unfold firstUnknown
          rw [List.find?_cons_of_pos _ (by simp [hol])]
          rfl
        · show (match option_lookup options n with
            | none => Except.error (CombinationError.unknownOption n)
            | some o =>
              if (vs.filter (fun v => v ∉ o.choices)).isEmpty then
                validate_selections options rest
              else Except.error (CombinationError.invalidChoice n
                (vs.filter (fun v => v ∉ o.choices)) o.choices)) = _
          rw [hol]
      | some o =>
        have hv : (vs.filter (fun v => v ∉ o.choices)).isEmpty = true := by
          rw [List.isEmpty_iff, List.filter_eq_nil_iff]
          intro v hvm
          simpa using hval (n, vs) (List.mem_cons_self _ _) o hol v hvm
        have hstep : validate_selections options ((n, vs) :: rest) =
            validate_selections options rest := by
          show (match option_lookup options n with
            | none => Except.error (CombinationError.unknownOption n)
            | some o =>
              if (vs.filter (fun v => v ∉ o.choices)).isEmpty then
                validate_selections options rest
              else Except.error (CombinationError.invalidChoice n
                (vs.filter (fun v => v ∉ o.choices)) o.choices)) = _
          rw [hol]
          show (if (vs.filter (fun v => v ∉ o.choices)).isEmpty = true then
              validate_selections options rest
            else Except.error (CombinationError.invalidChoice n
              (vs.filter (fun v => v ∉ o.choices)) o.choices)) =
            validate_selections options rest
          rw [if_pos hv]
        have hunk' : ∃ p ∈ rest, option_lookup options p.1 = none := by
          obtain ⟨p, hp, hpn⟩ := hunk
          rcases List.mem_cons.mp hp with h1 | h2
          · rw [h1] at hpn
            simp only [] at hpn
            rw [hol] at hpn
            cases hpn
          · exact ⟨p, h2, hpn⟩
        obtain ⟨m, hfind, hvalrest⟩ :=
          ih (fun p hp => hval p (List.mem_cons_of_mem _ hp)) hunk'
        refine ⟨m, ?_, by rw [hstep]; exact hvalrest⟩
        unfold firstUnknown at hfind ⊢
        rw [List.find?_cons_of_neg _ (by simp [hol])]
        exact hfind

lemma foldl_mul_filter {β : Type} (q : β → Bool) (f : β → Nat) :
    ∀ (l : List β) (a : Nat),
      l.foldl (fun c p => if q p then c * f p else c) a =
        a * ((l.filter q).map f).prod := by
  intro l
  induction l with
  | nil => intro a; simp
  | cons x rest ih =>
    intro a
    rw [List.foldl_cons, List.filter_cons]
    by_cases hx : q x
    · rw [if_pos hx, ih]
      simp [hx, Nat.mul_assoc]
    · rw [if_neg hx, ih]
      simp [hx]

lemma estimate_eq_prod (options : List TemplateOption)
    (selections : List (String × List String)) :
    estimate_combination_count options selections =
      ((selections.filter (fun p => (option_lookup options p.1).isSome &&
        !p.2.isEmpty)).map (fun p => p.2.length)).prod := by
  unfold estimate_combination_count
  rw [foldl_mul_filter]
  simp

lemma varying_perm (options : List TemplateOption)
    (selections : List (String × List String))
    (hnames : (options.map (fun o => o.name)).Nodup)
    (hkeys : (selections.map (fun p => p.1)).Nodup)
    (hknown : ∀ p ∈ selections, (option_lookup options p.1).isSome) :
    (varyingPairs options selections).Perm
      (selections.filter (fun p => !p.2.isEmpty)) := by
  have h1 : (varyingPairs options selections).Nodup :=
    List.Nodup.of_map _ (varyingPairs_keys_nodup options selections hnames)
  have h2 : (selections.filter (fun p => !p.2.isEmpty)).Nodup :=
    List.Nodup.filter _ (List.Nodup.of_map _ hkeys)
  rw [List.perm_ext_iff_of_nodup h1 h2]
  intro p
  cases p with
  | mk n vs =>
    rw [varyingPairs_mem, List.mem_filter]
    constructor
    · rintro ⟨_, hsel, hne⟩
      exact ⟨mem_of_firstLookup _ _ _ hsel, by simp [hne]⟩
    · rintro ⟨hm, hne⟩
      have hne' : vs.isEmpty = false := by simpa using hne
      refine ⟨?_, firstLookup_of_mem _ _ _ hkeys hm, hne'⟩
      have hs := hknown (n, vs) hm
      rw [option_lookup_isSome_iff] at hs
      simpa using hs

lemma contains_iff_mem (l : List String) (s : String) :
    l.contains s = true ↔ s ∈ l := by
  induction l with
  | nil => simp
  | cons x rest ih => simp

lemma zipStrict_maps {σ γ δ : Type} (l : List σ) (f : σ → γ) (g : σ → δ) :
    zipStrict (l.map f) (l.map g) = some (l.map (fun x => (f x, g x))) := by
  induction l with
  | nil => rfl
  | cons x rest ih =>
    show (match zipStrict (rest.map f) (rest.map g) with
      | some t => some ((f x, g x) :: t)
      | none => none) = _
    rw [ih]
    rfl

lemma get_taster_names_eq (pm : List Taster)
    (h : ∀ t ∈ pm, t.name ≠ "") :
    get_taster_names pm = pm.map (fun t => t.name) := by
  unfold get_taster_names hook_get_taster_name
  apply List.filter_eq_self.mpr
  intro a ha
  obtain ⟨t, ht, rfl⟩ := List.mem_map.mp ha
  simpa using h t ht

lemma hook_test_project_ok_of (pm : List Taster) (info : ProjectInfo)
    (h : ∀ t ∈ pm, ∃ r, t.test_project info = Except.ok r) :
    ∃ rs, hook_test_project pm info = Except.ok rs ∧
      List.Forall₂ (fun t r => t.test_project info = Except.ok r) pm rs := by
  induction pm with
  | nil => exact ⟨[], rfl, List.Forall₂.nil⟩
  | cons t ts ih =>
    obtain ⟨r, hr⟩ := h t (List.mem_cons_self _ _)
    obtain ⟨rs, hrs, hF⟩ := ih (fun t' ht' => h t' (List.mem_cons_of_mem _ ht'))
    refine ⟨r :: rs, ?_, List.Forall₂.cons hr hF⟩
    show (match t.test_project info with
      | Except.error e => Except.error e
      | Except.ok r =>
        match hook_test_project ts info with
        | Except.error e => Except.error e
        | Except.ok rs => Except.ok (r :: rs)) = _
    rw [hr, hrs]

lemma hook_test_project_error_of (pm : List Taster) (info : ProjectInfo)
    (h : ∃ t ∈ pm, ∃ e, t.test_project info = Except.error e) :
    ∃ e, hook_test_project pm info = Except.error e := by
  induction pm with
  | nil => obtain ⟨t, ht, _⟩ := h; cases ht
  | cons t ts ih =>
    cases htp : t.test_project info with
    | error e =>
      refine ⟨e, ?_⟩
      show (match t.test_project info with
        | Except.error e => Except.error e
        | Except.ok r =>
          match hook_test_project ts info with
          | Except.error e => Except.error e
          | Except.ok rs => Except.ok (r :: rs)) = _
      rw [htp]
    | ok r =>
      have h' : ∃ t' ∈ ts, ∃ e, t'.test_project info = Except.error e := by
        obtain ⟨t', ht', e, he⟩ := h
        rcases List.mem_cons.mp ht' with h1 | h2
        · subst h1; rw [htp] at he; cases he
        · exact ⟨t', h2, e, he⟩
      obtain ⟨e, he⟩ := ih h'
      refine ⟨e, ?_⟩
      show (match t.test_project info with
        | Except.error e => Except.error e
        | Except.ok r =>
          match hook_test_project ts info with
          | Except.error e => Except.error e
          | Except.ok rs => Except.ok (r :: rs)) = _
      rw [htp, he]

lemma filter_zip_forall₂ {pm : List Taster} {rs : List TasterResult}
    {R : Taster → TasterResult → Prop}
    (hF : List.Forall₂ R pm rs) (q : String → Bool) (p : Taster → Bool)
    (hq : ∀ t ∈ pm, q t.name = p t) :
    ∃ pairs, zipStrict (pm.map (fun t => t.name)) rs = some pairs ∧
      List.Forall₂ R (pm.filter p)
        ((pairs.filter (fun pr => q pr.1)).map (fun pr => pr.2)) := by
  induction hF with
  | nil => exact ⟨[], rfl, List.Forall₂.nil⟩
  | @cons t r ts rs' hr htail ih =>
    obtain ⟨pairs, hzip, hFilt⟩ :=
      ih (fun t' ht' => hq t' (List.mem_cons_of_mem _ ht'))
    refine ⟨(t.name, r) :: pairs, ?_, ?_⟩
    · simp only [List.map_cons, zipStrict, hzip]
    · rw [List.filter_cons, List.filter_cons]
      have hqt := hq t (List.mem_cons_self _ _)
      by_cases hp : p t
      · rw [hp] at hqt
        simp only [hqt, hp, if_pos, List.map_cons]
        exact List.Forall₂.cons hr hFilt
      · rw [Bool.eq_false_iff.mpr hp] at hqt
        simp only [hqt, Bool.eq_false_iff.mpr hp]
        simpa using hFilt

lemma get_applicable_eq (pm : List Taster) (ctx : TasterContext)
    (h : ∀ t ∈ pm, t.name ≠ "") :
    get_applicable_tasters pm ctx =
      some ((pm.filter (fun t => t.can_handle ctx)).map (fun t => t.name)) := by
  unfold get_applicable_tasters hook_can_handle
  rw [get_taster_names_eq pm h, zipStrict_maps]
  simp only [List.filter_map, List.map_map]
  rfl

lemma contains_applicable_iff (pm : List Taster) (ctx : TasterContext)
    (hnd : (pm.map (fun t => t.name)).Nodup) (t : Taster) (ht : t ∈ pm) :
    ((pm.filter (fun t' => t'.can_handle ctx)).map (fun t' => t'.name)).contains
      t.name = t.can_handle ctx := by
  cases hcan : t.can_handle ctx with
  | true =>
    apply (contains_iff_mem _ _).mpr
    exact List.mem_map.mpr ⟨t, List.mem_filter.mpr ⟨ht, hcan⟩, rfl⟩
  | false =>
    apply Bool.eq_false_iff.mpr
    intro hcon
    obtain ⟨t', ht'f, hname⟩ := List.mem_map.mp ((contains_iff_mem _ _).mp hcon)
    obtain ⟨ht'm, hcan'⟩ := List.mem_filter.mp ht'f
    have heq : t' = t := List.inj_on_of_nodup_map hnd ht'm ht hname
    rw [heq, hcan] at hcan'
    cases hcan'

lemma run_tasters_none_eq (pm : List Taster) (info : ProjectInfo)
    (h1 : ∀ t ∈ pm, t.name ≠ "")
    (h2 : (pm.map (fun t => t.name)).Nodup)
    (h3 : ∀ t ∈ pm, ∃ r, t.test_project info = Except.ok r) :
    ∃ all rs, hook_test_project pm info = Except.ok all ∧
      List.Forall₂ (fun t r => t.test_project info = Except.ok r) pm all ∧
      run_tasters pm info none = Except.ok rs ∧
      List.Forall₂ (fun t r => t.test_project info = Except.ok r)
        (pm.filter (fun t => t.can_handle info.taster_context)) rs := by
  obtain ⟨all, hall, hF⟩ := hook_test_project_ok_of pm info h3
  obtain ⟨pairs, hzip, hFilt⟩ := filter_zip_forall₂ hF
    (fun n => ((pm.filter (fun t => t.can_handle info.taster_context)).map
      (fun t => t.name)).contains n)
    (fun t => t.can_handle info.taster_context)
    (fun t ht => contains_applicable_iff pm info.taster_context h2 t ht)
  refine ⟨all, (pairs.filter (fun pr =>
      ((pm.filter (fun t => t.can_handle info.taster_context)).map
        (fun t => t.name)).contains pr.1)).map (fun pr => pr.2),
    hall, hF, ?_, hFilt⟩
  simp only [run_tasters, get_applicable_eq pm info.taster_context h1, hall,
    get_taster_names_eq pm h1, hzip]

lemma run_tasters_not_ok_of_error (pm : List Taster) (info : ProjectInfo)
    (names : Option (List String))
    (h : ∃ t ∈ pm, ∃ e, t.test_project info = Except.error e) :
    exceptIsOk (run_tasters pm info names) = false := by
  obtain ⟨e, he⟩ := hook_test_project_error_of pm info h
  unfold run_tasters
  cases hns : (match names with
      | some ns => some ns
      | none => get_applicable_tasters pm info.taster_context) with
  | none => rfl
  | some ns =>
    rw [he]
    rfl

/-- C1 counterexample: a registry with a raising validator and a healthy one.
The dispatch run does not return verdicts at all: the exception propagates
out of `run_tasters` (pluggy does not catch hookimpl exceptions and the
manager installs no handler), so no error-status verdict is synthesised and
the healthy validator's verdict is lost too. -/
theorem run_tasters_exception_aborts_cex :
    run_tasters [tRaising, tGood] piSample none = Except.error "boom" ∧
      exceptIsOk (run_tasters [tRaising, tGood] piSample none) = false :=
  ⟨rfl, rfl⟩

/-- C1 (amended): whenever any registered validator's `test_project` raises,
`run_tasters` raises as well — the whole dispatch is aborted and no verdict
list is returned, for any requested name set. -/
theorem run_tasters_exception_propagates (pm : List Taster)
    (info : ProjectInfo) (names : Option (List String))
    (h : ∃ t ∈ pm, ∃ e, t.test_project info = Except.error e) :
    exceptIsOk (run_tasters pm info names) = false :=
  run_tasters_not_ok_of_error pm info names h

/-- Witness for the amended C1 theorem at a concrete registry. -/
theorem run_tasters_exception_propagates_witness :
    (∃ t ∈ [tRaising, tGood], ∃ e,
      t.test_project piSample = Except.error e) ∧
    exceptIsOk (run_tasters [tRaising, tGood] piSample none) = false := by
  have h : ∃ t ∈ [tRaising, tGood], ∃ e,
      t.test_project piSample = Except.error e :=
    ⟨tRaising, List.mem_cons_self _ _, "boom", rfl⟩
  exact ⟨h, run_tasters_exception_propagates [tRaising, tGood] piSample none h⟩

/-- C4: for every verdict list returned by dispatch, the coordinator's
`overall_success` boolean is the conjunction of `status == success` over the
verdicts, and it is vacuously true on the empty verdict list. -/
theorem overall_success_all_and_vacuous (pm : List Taster)
    (info : ProjectInfo) (rs : List TasterResult)
    (h : run_tasters pm info none = Except.ok rs) :
    ((computeOverallSuccess rs = true) ↔
      ∀ r ∈ rs, r.status = TasterStatus.SUCCESS) ∧
    (rs = [] → computeOverallSuccess rs = true) := by
  constructor
  · unfold computeOverallSuccess
    rw [List.all_eq_true]
    constructor
    · intro hA r hr
      simpa using hA r hr
    · intro hA r hr
      simpa using hA r hr
  · intro he
    subst he
    rfl

/-- Witness for C4 on the empty registry, whose dispatch returns the empty
verdict list. -/
theorem overall_success_all_and_vacuous_witness :
    run_tasters [] piSample none = Except.ok [] ∧
    (((computeOverallSuccess [] = true) ↔
      ∀ r ∈ ([] : List TasterResult), r.status = TasterStatus.SUCCESS) ∧
    (([] : List TasterResult) = [] → computeOverallSuccess [] = true)) :=
  ⟨rfl, overall_success_all_and_vacuous [] piSample [] rfl⟩

/-- C9: the estimator is a total function equal to the product of the
selected-value counts over the entries whose key names a known option and
whose value list is non-empty; an entry with an unknown option name is
ignored silently (appending one never changes the estimate), unlike
`generate_combinations`, which rejects it. -/
theorem estimate_count_total_product (options : List TemplateOption)
    (selections : List (String × List String)) :
    estimate_combination_count options selections =
      ((selections.filter (fun p => (option_lookup options p.1).isSome &&
        !p.2.isEmpty)).map (fun p => p.2.length)).prod ∧
    ∀ n vs, option_lookup options n = none →
      estimate_combination_count options (selections ++ [(n, vs)]) =
        estimate_combination_count options selections := by
  constructor
  · exact estimate_eq_prod options selections
  · intro n vs hnone
    rw [estimate_eq_prod, estimate_eq_prod, List.filter_append]
    have hunit : [(n, vs)].filter
        (fun p => (option_lookup options p.1).isSome && !p.2.isEmpty) = [] := by
      simp [hnone]
    rw [hunit, List.append_nil]

/-- Witness for C9 at a concrete option list: the estimate equals the stated
product and an appended unknown-name entry leaves it unchanged. -/
theorem estimate_count_total_product_witness :
    estimate_combination_count [oDb] [("db", ["postgres", "mysql"])] =
      (([("db", ["postgres", "mysql"])].filter
        (fun p => (option_lookup [oDb] p.1).isSome && !p.2.isEmpty)).map
          (fun p => p.2.length)).prod ∧
    estimate_combination_count [oDb]
      ([("db", ["postgres", "mysql"])] ++ [("zz", ["q"])]) =
      estimate_combination_count [oDb] [("db", ["postgres", "mysql"])] :=
  ⟨(estimate_count_total_product [oDb] [("db", ["postgres", "mysql"])]).1,
    (estimate_count_total_product [oDb] [("db", ["postgres", "mysql"])]).2
      "zz" ["q"] rfl⟩

/-- C10: dispatch filtering is by name membership, not validator identity —
with two registered validators declaring the same (non-empty) name, running
with exactly that name requested returns both validators' verdicts, so
same-named validators cannot be selected individually. -/
theorem run_tasters_shared_name_returns_both (t1 t2 : Taster)
    (info : ProjectInfo) (n : String) (r1 r2 : TasterResult) (hn : n ≠ "")
    (h1 : t1.name = n) (h2 : t2.name = n)
    (e1 : t1.test_project info = Except.ok r1)
    (e2 : t2.test_project info = Except.ok r2) :
    run_tasters [t1, t2] info (some [n]) = Except.ok [r1, r2] := by
  have hnames : get_taster_names [t1, t2] = [n, n] := by
    unfold get_taster_names hook_get_taster_name
    simp [h1, h2, hn]
  have hhook : hook_test_project [t1, t2] info = Except.ok [r1, r2] := by
    simp [hook_test_project, e1, e2]
  simp [run_tasters, hhook, hnames, zipStrict]

/-- Witness for C10: two concrete validators sharing the name `x`. -/
theorem run_tasters_shared_name_returns_both_witness :
    ("x" ≠ "" ∧ tDupA.name = "x" ∧ tDupB.name = "x" ∧
      tDupA.test_project piSample = Except.ok (resOf "first-x") ∧
      tDupB.test_project piSample = Except.ok (resOf "second-x")) ∧
    run_tasters [tDupA, tDupB] piSample (some ["x"]) =
      Except.ok [resOf "first-x", resOf "second-x"] :=
  ⟨⟨by decide, rfl, rfl, rfl, rfl⟩,
    run_tasters_shared_name_returns_both tDupA tDupB piSample "x"
      (resOf "first-x") (resOf "second-x") (by decide) rfl rfl rfl rfl⟩

/-- C2: over a well-formed option list (distinct names, as extracted from
the template's context mapping) and a valid selection map with at least one
varying option, `generate_combinations` returns one context per tuple of
the cartesian product of the varying value lists taken in declaration order
(`cartesianAssignments` enumerates it with the last-declared varying option
cycling fastest), and each returned context reads, at every key, as the
base context merged with the tuple's assignments merged with every fixed
option's default, assignments and defaults overriding the base. -/
theorem generate_combinations_cartesian_product (options : List TemplateOption)
    (selections : List (String × List String)) (base : List (String × PyVal))
    (hnames : (options.map (fun o => o.name)).Nodup)
    (hvalid : ∀ p ∈ selections, ∃ o, option_lookup options p.1 = some o ∧
      ∀ v ∈ p.2, v ∈ o.choices)
    (hvary : varyingPairs options selections ≠ []) :
    ∃ l, generate_combinations options selections base = Except.ok l ∧
      List.Forall₂
        (fun c a => ∀ k, firstLookup c k =
          specContext options selections base a k)
        l (cartesianAssignments (varyingPairs options selections)) := by
  obtain ⟨l, hok, hF⟩ :=
    generate_combinations_char options selections base hvalid
  refine ⟨l, hok, ?_⟩
  refine forall₂_imp_mem hF ?_
  intro c _ a ha hcode k
  rw [hcode k]
  exact codeContext_eq_specContext options selections base a hnames
    (cartesianAssignments_mem_forall _ a ha) k

/-- Witness for C2 on the repository's own doctest data: `db` varies over
two values, `cache` stays fixed, and an extra base-context key rides along. -/
theorem generate_combinations_cartesian_product_witness :
    (([oDb, oCache].map (fun o => o.name)).Nodup ∧
      (∀ p ∈ [("db", ["postgres", "mysql"])],
        ∃ o, option_lookup [oDb, oCache] p.1 = some o ∧
          ∀ v ∈ p.2, v ∈ o.choices) ∧
      varyingPairs [oDb, oCache] [("db", ["postgres", "mysql"])] ≠ []) ∧
    (∃ l, generate_combinations [oDb, oCache] [("db", ["postgres", "mysql"])]
        [("author", PyVal.obj 0)] = Except.ok l ∧
      List.Forall₂
        (fun c a => ∀ k, firstLookup c k =
          specContext [oDb, oCache] [("db", ["postgres", "mysql"])]
            [("author", PyVal.obj 0)] a k)
        l (cartesianAssignments
            (varyingPairs [oDb, oCache] [("db", ["postgres", "mysql"])]))) := by
  have hnames : ([oDb, oCache].map (fun o => o.name)).Nodup := by decide
  have hvalid : ∀ p ∈ [("db", ["postgres", "mysql"])],
      ∃ o, option_lookup [oDb, oCache] p.1 = some o ∧
        ∀ v ∈ p.2, v ∈ o.choices := by
    intro p hp
    rw [List.mem_singleton] at hp
    subst hp
    exact ⟨oDb, rfl, by decide⟩
  have hvary : varyingPairs [oDb, oCache] [("db", ["postgres", "mysql"])] ≠ []
    := by decide
  exact ⟨⟨hnames, hvalid, hvary⟩,
    generate_combinations_cartesian_product [oDb, oCache]
      [("db", ["postgres", "mysql"])] [("author", PyVal.obj 0)]
      hnames hvalid hvary⟩

/-- C5: on a valid selection map (distinct keys naming known options,
values drawn from the choices) over options with distinct names, the number
of contexts returned by `generate_combinations` equals
`estimate_combination_count` on the same inputs. -/
theorem expand_length_eq_estimate (options : List TemplateOption)
    (selections : List (String × List String)) (base : List (String × PyVal))
    (hnames : (options.map (fun o => o.name)).Nodup)
    (hkeys : (selections.map (fun p => p.1)).Nodup)
    (hvalid : ∀ p ∈ selections, ∃ o, option_lookup options p.1 = some o ∧
      ∀ v ∈ p.2, v ∈ o.choices) :
    ∃ l, generate_combinations options selections base = Except.ok l ∧
      l.length = estimate_combination_count options selections := by
  obtain ⟨l, hok, hF⟩ :=
    generate_combinations_char options selections base hvalid
  refine ⟨l, hok, ?_⟩
  have hknown : ∀ p ∈ selections, (option_lookup options p.1).isSome := by
    intro p hp
    obtain ⟨o, ho, _⟩ := hvalid p hp
    rw [ho]
    rfl
  have hQ : selections.filter (fun p =>
      (option_lookup options p.1).isSome && !p.2.isEmpty) =
      selections.filter (fun p => !p.2.isEmpty) := by
    apply List.filter_congr
    intro p hp
    rw [hknown p hp]
    simp
  rw [List.Forall₂.length_eq hF, cartesianAssignments_eq, List.length_map,
    listProduct_length, List.map_map, estimate_eq_prod, hQ]
  apply List.Perm.prod_eq
  have hperm := varying_perm options selections hnames hkeys hknown
  simpa [Function.comp_def] using hperm.map (fun p => p.2.length)

/-- Witness for C5 on concrete data: two contexts are generated and the
estimator also answers two. -/
theorem expand_length_eq_estimate_witness :
    (([oDb, oCache].map (fun o => o.name)).Nodup ∧
      (([("db", ["postgres", "mysql"]), ("cache", ["redis"])].map
        (fun p => p.1)).Nodup) ∧
      (∀ p ∈ [("db", ["postgres", "mysql"]), ("cache", ["redis"])],
        ∃ o, option_lookup [oDb, oCache] p.1 = some o ∧
          ∀ v ∈ p.2, v ∈ o.choices)) ∧
    (∃ l, generate_combinations [oDb, oCache]
        [("db", ["postgres", "mysql"]), ("cache", ["redis"])] []
        = Except.ok l ∧
      l.length = estimate_combination_count [oDb, oCache]
        [("db", ["postgres", "mysql"]), ("cache", ["redis"])]) := by
  have hnames : ([oDb, oCache].map (fun o => o.name)).Nodup := by decide
  have hkeys : (([("db", ["postgres", "mysql"]), ("cache", ["redis"])].map
      (fun p => p.1)).Nodup) := by decide
  have hvalid : ∀ p ∈ [("db", ["postgres", "mysql"]), ("cache", ["redis"])],
      ∃ o, option_lookup [oDb, oCache] p.1 = some o ∧
        ∀ v ∈ p.2, v ∈ o.choices := by
    intro p hp
    rcases List.mem_cons.mp hp with h1 | h2
    · subst h1
      exact ⟨oDb, rfl, by decide⟩
    · rw [List.mem_singleton] at h2
      subst h2
      exact ⟨oCache, rfl, by decide⟩
  exact ⟨⟨hnames, hkeys, hvalid⟩,
    expand_length_eq_estimate [oDb, oCache]
      [("db", ["postgres", "mysql"]), ("cache", ["redis"])] []
      hnames hkeys hvalid⟩

/-- C7: with a selection map whose keys (all distinct, as in any dict) name
known options and in which no option varies — in particular the empty map —
`generate_combinations` returns exactly one context, which reads at every
key as the base context merged with every option's default, defaults
overriding the base on collision. -/
theorem expand_no_varying_defaults (options : List TemplateOption)
    (selections : List (String × List String)) (base : List (String × PyVal))
    (hkeys : (selections.map (fun p => p.1)).Nodup)
    (hknown : ∀ p ∈ selections, (option_lookup options p.1).isSome)
    (hnovary : varyingPairs options selections = []) :
    ∃ c, generate_combinations options selections base = Except.ok [c] ∧
      ∀ k, firstLookup c k = mergedDefaults options base k := by
  have hvalid : ∀ p ∈ selections, ∃ o, option_lookup options p.1 = some o ∧
      ∀ v ∈ p.2, v ∈ o.choices := by
    intro p hp
    cases p with
    | mk n vs =>
      obtain ⟨o, ho⟩ := Option.isSome_iff_exists.mp (hknown (n, vs) hp)
      refine ⟨o, ho, ?_⟩
      have hvs : vs.isEmpty = true := by
        by_contra hne
        have hne' : vs.isEmpty = false := Bool.eq_false_iff.mpr hne
        have hsel : selLookup selections n = some vs :=
          firstLookup_of_mem _ _ _ hkeys hp
        obtain ⟨hom, _⟩ := option_lookup_mem options n o ho
        have hv : (n, vs) ∈ varyingPairs options selections :=
          (varyingPairs_mem options selections n vs).mpr
            ⟨⟨o, hom, by assumption⟩, hsel, hne'⟩
        rw [hnovary] at hv
        cases hv
      rw [List.isEmpty_iff] at hvs
      subst hvs
      intro v hv
      cases hv
  obtain ⟨l, hok, hF⟩ :=
    generate_combinations_char options selections base hvalid
  rw [hnovary] at hF
  have hCA : cartesianAssignments ([] : List (String × List String)) = [[]] :=
    rfl
  rw [hCA] at hF
  cases hF with
  | cons hc htail =>
    cases htail
    refine ⟨_, hok, ?_⟩
    intro k
    rw [hc k]
    unfold codeContext mergedDefaults fixedPairs
    have hall : ∀ o ∈ options, isFixed selections o.name = true :=
      (varyingPairs_empty_iff _ _).mp hnovary
    rw [List.filter_eq_self.mpr hall, lastLookup_name_default]
    cases option_lookup options k with
    | some o => rfl
    | none => rfl

/-- Witness for C7: one option selected with an empty value list, the other
absent; a single all-defaults context comes back. -/
theorem expand_no_varying_defaults_witness :
    ((([("db", ([] : List String))].map (fun p => p.1)).Nodup) ∧
      (∀ p ∈ [("db", ([] : List String))],
        (option_lookup [oDb, oCache] p.1).isSome) ∧
      varyingPairs [oDb, oCache] [("db", ([] : List String))] = []) ∧
    (∃ c, generate_combinations [oDb, oCache] [("db", ([] : List String))]
        [("author", PyVal.obj 0)] = Except.ok [c] ∧
      ∀ k, firstLookup c k =
        mergedDefaults [oDb, oCache] [("author", PyVal.obj 0)] k) := by
  have hkeys : (([("db", ([] : List String))].map (fun p => p.1)).Nodup) := by
    decide
  have hknown : ∀ p ∈ [("db", ([] : List String))],
      (option_lookup [oDb, oCache] p.1).isSome := by
    intro p hp
    rw [List.mem_singleton] at hp
    subst hp
    rfl
  have hnovary : varyingPairs [oDb, oCache] [("db", ([] : List String))] = []
    := by decide
  exact ⟨⟨hkeys, hknown, hnovary⟩,
    expand_no_varying_defaults [oDb, oCache] [("db", ([] : List String))]
      [("author", PyVal.obj 0)] hkeys hknown hnovary⟩

/-- C8: over well-formed options (non-empty choices containing the default,
as `TemplateOption.__post_init__` enforces; distinct names) and a valid
selection map, every context returned by `generate_combinations` maps each
option's name to a value drawn from that option's choices. -/
theorem expand_values_within_choices (options : List TemplateOption)
    (selections : List (String × List String)) (base : List (String × PyVal))
    (hwf : ∀ o ∈ options, o.wellFormed)
    (hnames : (options.map (fun o => o.name)).Nodup)
    (hvalid : ∀ p ∈ selections, ∃ o, option_lookup options p.1 = some o ∧
      ∀ v ∈ p.2, v ∈ o.choices) :
    ∃ l, generate_combinations options selections base = Except.ok l ∧
      ∀ c ∈ l, ∀ o ∈ options, ∃ v, v ∈ o.choices ∧
        firstLookup c o.name = some (PyVal.str v) := by
  obtain ⟨l, hok, hF⟩ :=
    generate_combinations_char options selections base hvalid
  refine ⟨l, hok, ?_⟩
  intro c hc o ho
  obtain ⟨a, ha, hcode⟩ := forall₂_mem_left hF c hc
  have haF := cartesianAssignments_mem_forall _ a ha
  have hfk := fixedPairs_keys_nodup options selections hnames
  by_cases hfix : isFixed selections o.name
  · have hmemf : (o.name, o.default) ∈ fixedPairs options selections :=
      (fixedPairs_mem options selections o.name o.default).mpr
        ⟨o, ho, hfix, rfl, rfl⟩
    have hlook : firstLookup (fixedPairs options selections) o.name =
        some o.default := firstLookup_of_mem _ _ _ hfk hmemf
    refine ⟨o.default, (hwf o ho).2, ?_⟩
    rw [hcode o.name]
    unfold codeContext
    rw [lastLookup_eq_firstLookup _ _ hfk, hlook]
  · have hfix' : isFixed selections o.name = false := Bool.eq_false_iff.mpr hfix
    obtain ⟨vs, hsel, hne⟩ := (isFixed_false_iff _ _).mp hfix'
    have hqmem : (o.name, vs) ∈ varyingPairs options selections :=
      (varyingPairs_mem options selections o.name vs).mpr
        ⟨⟨o, ho, rfl⟩, hsel, hne⟩
    obtain ⟨pr, hpr, hrel⟩ := forall₂_mem_right haF _ hqmem
    have hak : (a.map (fun p => p.1)).Nodup := by
      rw [forall₂_assign_keys a _ haF]
      exact varyingPairs_keys_nodup options selections hnames
    have hmema : (o.name, pr.2) ∈ a := by
      have hpr1 : pr.1 = o.name := hrel.1
      have hpr_eq : pr = (o.name, pr.2) := by
        cases pr
        simp only at hpr1
        rw [hpr1]
      rw [← hpr_eq]
      exact hpr
    have hlooka : firstLookup a o.name = some pr.2 :=
      firstLookup_of_mem _ _ _ hak hmema
    have hchoice : pr.2 ∈ o.choices := by
      have hmemsel : (o.name, vs) ∈ selections := mem_of_firstLookup _ _ _ hsel
      obtain ⟨o', ho', hvals⟩ := hvalid (o.name, vs) hmemsel
      have hself : option_lookup options o.name = some o :=
        option_lookup_self options hnames o ho
      simp only at ho'
      rw [hself] at ho'
      cases ho'
      exact hvals pr.2 hrel.2
    refine ⟨pr.2, hchoice, ?_⟩
    rw [hcode o.name]
    unfold codeContext
    rw [lastLookup_fixedPairs_of_not_fixed options selections o.name hfix',
      lastLookup_eq_firstLookup _ _ hak, hlooka]

/-- Witness for C8 on concrete data: in both returned contexts, each
option's value is one of its choices. -/
theorem expand_values_within_choices_witness :
    ((∀ o ∈ [oDb, oCache], o.wellFormed) ∧
      ([oDb, oCache].map (fun o => o.name)).Nodup ∧
      (∀ p ∈ [("db", ["postgres", "mysql"])],
        ∃ o, option_lookup [oDb, oCache] p.1 = some o ∧
          ∀ v ∈ p.2, v ∈ o.choices)) ∧
    (∃ l, generate_combinations [oDb, oCache] [("db", ["postgres", "mysql"])]
        [] = Except.ok l ∧
      ∀ c ∈ l, ∀ o ∈ [oDb, oCache], ∃ v, v ∈ o.choices ∧
        firstLookup c o.name = some (PyVal.str v)) := by
  have hwf : ∀ o ∈ [oDb, oCache], o.wellFormed := by
    intro o ho
    rcases List.mem_cons.mp ho with h1 | h2
    · subst h1; exact ⟨by decide, by decide⟩
    · rw [List.mem_singleton] at h2
      subst h2; exact ⟨by decide, by decide⟩
  have hnames : ([oDb, oCache].map (fun o => o.name)).Nodup := by decide
  have hvalid : ∀ p ∈ [("db", ["postgres", "mysql"])],
      ∃ o, option_lookup [oDb, oCache] p.1 = some o ∧
        ∀ v ∈ p.2, v ∈ o.choices := by
    intro p hp
    rw [List.mem_singleton] at hp
    subst hp
    exact ⟨oDb, rfl, by decide⟩
  exact ⟨⟨hwf, hnames, hvalid⟩,
    expand_values_within_choices [oDb, oCache] [("db", ["postgres", "mysql"])]
      [] hwf hnames hvalid⟩

/-- C3 counterexample: two validators share the name `x`; only the first is
applicable, so a run with `names` omitted should — per the claim — return
exactly the first validator's verdict, yet both verdicts come back because
the filter tests name membership, not validator identity. -/
theorem run_tasters_default_applicable_cex :
    run_tasters [tDupA, tDupB] piSample none =
      Except.ok [resOf "first-x", resOf "second-x"] ∧
    tDupB.can_handle piSample.taster_context = false ∧
    get_applicable_tasters [tDupA, tDupB] piSample.taster_context =
      some ["x"] :=
  ⟨rfl, rfl, rfl⟩

/-- C3 (amended): provided the registered validators carry distinct
non-empty names and every `test_project` returns a result, a run with
`names` omitted evaluates every registered validator (the hook call yields
one result per validator, in order) and then returns exactly the verdicts
of the validators whose `can_handle` answered true, in registration order. -/
theorem run_tasters_default_runs_applicable (pm : List Taster)
    (info : ProjectInfo)
    (h1 : ∀ t ∈ pm, t.name ≠ "")
    (h2 : (pm.map (fun t => t.name)).Nodup)
    (h3 : ∀ t ∈ pm, ∃ r, t.test_project info = Except.ok r) :
    ∃ all rs, hook_test_project pm info = Except.ok all ∧
      List.Forall₂ (fun t r => t.test_project info = Except.ok r) pm all ∧
      run_tasters pm info none = Except.ok rs ∧
      List.Forall₂ (fun t r => t.test_project info = Except.ok r)
        (pm.filter (fun t => t.can_handle info.taster_context)) rs :=
  run_tasters_none_eq pm info h1 h2 h3

/-- Witness for the amended C3 theorem at a concrete registry with one
applicable and one non-applicable validator. -/
theorem run_tasters_default_runs_applicable_witness :
    ((∀ t ∈ [tGood, tNotApplicable], t.name ≠ "") ∧
      (([tGood, tNotApplicable].map (fun t => t.name)).Nodup) ∧
      (∀ t ∈ [tGood, tNotApplicable], ∃ r,
        t.test_project piSample = Except.ok r)) ∧
    (∃ all rs, hook_test_project [tGood, tNotApplicable] piSample =
        Except.ok all ∧
      List.Forall₂ (fun t r => t.test_project piSample = Except.ok r)
        [tGood, tNotApplicable] all ∧
      run_tasters [tGood, tNotApplicable] piSample none = Except.ok rs ∧
      List.Forall₂ (fun t r => t.test_project piSample = Except.ok r)
        ([tGood, tNotApplicable].filter
          (fun t => t.can_handle piSample.taster_context)) rs) := by
  have h1 : ∀ t ∈ [tGood, tNotApplicable], t.name ≠ "" := by
    intro t ht
    rcases List.mem_cons.mp ht with hA | hB
    · subst hA; decide
    · rw [List.mem_singleton] at hB
      subst hB; decide
  have h2 : (([tGood, tNotApplicable].map (fun t => t.name)).Nodup) := by
    simp [tGood, tNotApplicable]
  have h3 : ∀ t ∈ [tGood, tNotApplicable], ∃ r,
      t.test_project piSample = Except.ok r := by
    intro t ht
    rcases List.mem_cons.mp ht with hA | hB
    · subst hA; exact ⟨resOf "good", rfl⟩
    · rw [List.mem_singleton] at hB
      subst hB; exact ⟨resOf "no", rfl⟩
  exact ⟨⟨h1, h2, h3⟩,
    run_tasters_default_runs_applicable [tGood, tNotApplicable] piSample
      h1 h2 h3⟩

/-- C6 counterexample: the selection map holds an invalid choice for `db`
before the unknown key `nope`; validation walks the map in order, so the
call fails with the `Invalid values` error, not the claimed `Unknown
option` one (the unknown key is present all the same). -/
theorem expand_unknown_option_cex :
    generate_combinations [oDb] [("db", ["sqlite"]), ("nope", ["x"])] [] =
      Except.error (CombinationError.invalidChoice "db" ["sqlite"]
        ["postgres", "mysql"]) ∧
    option_lookup [oDb] "nope" = none ∧
    isUnknownOptionErr
      (generate_combinations [oDb] [("db", ["sqlite"]), ("nope", ["x"])] []) =
      false :=
  ⟨rfl, rfl, rfl⟩

/-- C6 (amended): a selection map holding a key that names no option always
makes `generate_combinations` fail — no contexts are produced — and the
error is `Unknown option` naming the first such key in iteration order
provided every entry at a known key carries only valid choices (otherwise
the first invalid-choice entry preempts it). -/
theorem expand_unknown_option_fails (options : List TemplateOption)
    (selections : List (String × List String)) (base : List (String × PyVal))
    (hunk : ∃ p ∈ selections, option_lookup options p.1 = none) :
    (∃ e, generate_combinations options selections base = Except.error e) ∧
    ((∀ p ∈ selections, ∀ o, option_lookup options p.1 = some o →
        ∀ v ∈ p.2, v ∈ o.choices) →
      ∃ n, firstUnknown options selections = some n ∧
        generate_combinations options selections base =
          Except.error (CombinationError.unknownOption n)) := by
  constructor
  · cases hval : validate_selections options selections with
    | error e =>
      exact ⟨e, by simp only [generate_combinations, hval]⟩
    | ok u =>
      exfalso
      cases u
      obtain ⟨p, hp, hnone⟩ := hunk
      obtain ⟨o, ho, _⟩ := (validate_ok_iff options selections).mp hval p hp
      rw [hnone] at ho
      cases ho
  · intro hval
    obtain ⟨n, hfind, herr⟩ :=
      validate_selections_unknown options selections hval hunk
    exact ⟨n, hfind, by simp only [generate_combinations, herr]⟩

/-- Witness for the amended C6 theorem: a single-entry selection map whose
only key is unknown. -/
theorem expand_unknown_option_fails_witness :
    (∃ p ∈ [("nope", ["x"])], option_lookup [oDb] p.1 = none) ∧
    ((∃ e, generate_combinations [oDb] [("nope", ["x"])] [] =
        Except.error e) ∧
    ((∀ p ∈ [("nope", ["x"])], ∀ o, option_lookup [oDb] p.1 = some o →
        ∀ v ∈ p.2, v ∈ o.choices) →
      ∃ n, firstUnknown [oDb] [("nope", ["x"])] = some n ∧
        generate_combinations [oDb] [("nope", ["x"])] [] =
          Except.error (CombinationError.unknownOption n))) := by
  have hunk : ∃ p ∈ [("nope", ["x"])], option_lookup [oDb] p.1 = none :=
    ⟨("nope", ["x"]), List.mem_singleton.mpr rfl, rfl⟩
  exact ⟨hunk, expand_unknown_option_fails [oDb] [("nope", ["x"])] [] hunk⟩
